import Mathlib

set_option autoImplicit false

/-!
Shallow embedding of the AIPlant device-telemetry core:
`aiplant/bluetooth/adapter.py` (chunked model upload, transfer gate,
endpoint resolution) and `aiplant/database/eeprom.py` (dual-region
time-series store).  Bytes are modelled as `Nat`, byte strings as
`List Nat`, Python strings as `List Char`.
-/

namespace AIPlant

/-- The fixed sentinel constant of `adapter.py`
(`bytearray("END__OF__MODEL__SEQUENCE".encode("utf-8"))`), as its byte
values (the text is ASCII, so UTF-8 bytes coincide with code points). -/
def _END_SEQUENCE : List Nat := "END__OF__MODEL__SEQUENCE".toList.map Char.toNat

/-- `chunk_data(data, size)` from `adapter.py`:
`[data[i : i + size] for i in range(0, len(data), size)]`, written as
take/drop recursion.  For `size = 0` Python's `range` raises `ValueError`;
the guard returns `[]` there, a case no caller reaches (the sole call site
passes 512 and every claim assumes a positive size). -/
def chunk_data (data : List Nat) (size : Nat) : List (List Nat) :=
  if h : size = 0 ∨ data = [] then []
  else data.take size :: chunk_data (data.drop size) size
termination_by data.length
decreasing_by
  push_neg at h
  simp only [List.length_drop]
  have hlen : 0 < data.length := List.length_pos.mpr h.2
  omega

/-- The sequence of fragments `BluetoothAdapter.send_data` writes to the
model characteristic: when `len(data) > 512` the 512-byte chunks followed by
the sentinel fragment, otherwise a single write of `data` itself. -/
def send_data_fragments (data : List Nat) : List (List Nat) :=
  if data.length > 512 then chunk_data data 512 ++ [_END_SEQUENCE] else [data]

/-- The sequence of `write_gatt_char` calls inside `send_data`, written in
order; `writeOk` says whether a given fragment write succeeds, and a raised
error aborts the remaining writes. -/
def run_writes (writeOk : List Nat → Bool) : List (List Nat) → Except Unit Unit
  | [] => .ok ()
  | f :: rest => if writeOk f then run_writes writeOk rest else .error ()

/-- `BluetoothAdapter.send_data` with the transfer gate made explicit:
`_read_enabled` is set to `False` on entry, the fragments of
`send_data_fragments` are written in order, and only the fall-through exit
of the method executes the final `self._read_enabled = True`; a raised
error propagates past that assignment, leaving the flag `False` (there is
no try/finally in the source).  Returns (outcome, final `_read_enabled`). -/
def send_data_run (data : List Nat) (writeOk : List Nat → Bool) :
    Except Unit Unit × Bool :=
  match run_writes writeOk (send_data_fragments data) with
  | .ok () => (.ok (), true)
  | .error e => (.error e, false)

/-- Concrete artifact for the C1 witness: 600 zero bytes. -/
def c1WitnessData : List Nat := List.replicate 600 0

/-- A historical-region record (`_DatabaseEntry` in `database/models.py`).
`refresh` stores Python ints for the numeric payloads, modelled as `Int`;
the timestamp is the synthesized `Nat` clock value. -/
structure DatabaseEntry where
  datetime_utc : Nat
  temperature : Int
  humidity : Int
  target : Bool
deriving DecidableEq, Repr

/-- Historical-region key: `(timestamp, plant_id)`. -/
abbrev DbKey : Type := Nat × Int

/-- The historical region `self._database`: a Python dict modelled as an
association list in insertion order. -/
abbrev Database : Type := List (DbKey × DatabaseEntry)

/-- `d[key] = value` on a Python dict: overwrite in place when the key is
present, append otherwise. -/
def dictInsert (d : Database) (k : DbKey) (v : DatabaseEntry) : Database :=
  if d.any (fun kv => decide (kv.1 = k)) then
    d.map (fun kv => if kv.1 = k then (k, v) else kv)
  else d ++ [(k, v)]

/-- `d.get(key)` on a Python dict. -/
def dictGet (d : Database) (k : DbKey) : Option DatabaseEntry :=
  (d.find? (fun kv => decide (kv.1 = k))).map Prod.snd

/-- Python `max(xs, key=f)`: later elements replace the running maximum only
on strictly greater key, so the first maximal element is returned.  `none`
models the `if entries else None` guard of `get_latest_entry` around the
empty case (where bare `max` would raise). -/
def pyMaxBy (f : DatabaseEntry → Nat) : List DatabaseEntry → Option DatabaseEntry
  | [] => none
  | x :: xs => some (xs.foldl (fun best y => if f best < f y then y else best) x)

/-- `EEPROMDatabase.get_latest_entry` on the historical region: keep the
`(key, entry)` pairs with `key[1] == plant_id and key[0] <= timestamp`, then
Python `max` by `entry.datetime_utc` (`None` when nothing matches). -/
def get_latest_entry (d : Database) (plant_id : Int) (timestamp : Nat) :
    Option DatabaseEntry :=
  pyMaxBy (fun e => e.datetime_utc)
    ((d.filter
      (fun kv => decide (kv.1.2 = plant_id) && decide (kv.1.1 ≤ timestamp))).map
      Prod.snd)

/-- `EEPROMDatabase.get_entry`: exact-key lookup via `dict.get`. -/
def get_entry (d : Database) (timestamp : Nat) (plant_id : Int) :
    Option DatabaseEntry :=
  dictGet d (timestamp, plant_id)

/-- The store state: `_database` is `None` before `connect` and after
`disconnect` (`__init__` sets `self._database = None`). -/
structure EEPROMDatabaseState where
  _database : Option Database

/-- `EEPROMDatabase.__init__`: the store starts unconnected. -/
def initState : EEPROMDatabaseState := ⟨none⟩

/-- `EEPROMDatabase.disconnect`: `self._database = None`; terminal until a
fresh `connect`. -/
def disconnectOp (_s : EEPROMDatabaseState) : EEPROMDatabaseState := ⟨none⟩

/-- The `database` property: raises `RuntimeError` when `_database is None`. -/
def databaseProp (s : EEPROMDatabaseState) : Except Unit Database :=
  match s._database with
  | none => .error ()
  | some d => .ok d

/-- The `entries` property: `list(self.database.values())`. -/
def entriesOp (s : EEPROMDatabaseState) : Except Unit (List DatabaseEntry) :=
  (databaseProp s).map (fun d => d.map Prod.snd)

/-- `EEPROMDatabase.get_entry` at the store level: goes through the
`database` property, hence errors when uninitialized. -/
def getEntryOp (s : EEPROMDatabaseState) (timestamp : Nat) (plant_id : Int) :
    Except Unit (Option DatabaseEntry) :=
  (databaseProp s).map (fun d => get_entry d timestamp plant_id)

/-- `EEPROMDatabase.get_latest_entry` at the store level. -/
def getLatestEntryOp (s : EEPROMDatabaseState) (plant_id : Int) (timestamp : Nat) :
    Except Unit (Option DatabaseEntry) :=
  (databaseProp s).map (fun d => get_latest_entry d plant_id timestamp)

/-- Python `str.split(sep)` for a one-character separator, on the character
list of the string: `"".split(",") == [""]`, separators delimit possibly
empty fields. -/
def splitOnChar (sep : Char) : List Char → List (List Char)
  | [] => [[]]
  | c :: rest =>
    match splitOnChar sep rest with
    | [] => [[]]
    | g :: gs => if c = sep then [] :: g :: gs else (c :: g) :: gs

/-- Line iteration of a text file (`async for line in file`): split after
each newline, every line keeping its trailing newline character. -/
def pyLines : List Char → List (List Char)
  | [] => []
  | c :: rest =>
    if c = '\n' then ['\n'] :: pyLines rest
    else
      match pyLines rest with
      | [] => [[c]]
      | l :: ls => (c :: l) :: ls

/-- Python `str.isdigit` for the ASCII data this repository reads: non-empty
and all decimal digits. -/
def pyIsDigit (s : List Char) : Bool := !s.isEmpty && s.all Char.isDigit

/-- Python `str.strip()`: remove leading and trailing whitespace. -/
def pyStrip (s : List Char) : List Char :=
  ((s.dropWhile Char.isWhitespace).reverse.dropWhile Char.isWhitespace).reverse

/-- Decimal digit string to `Nat`. -/
def digitsToNat (ds : List Char) : Nat :=
  ds.foldl (fun n c => 10 * n + (c.toNat - '0'.toNat)) 0

/-- Python `int(str)`: surrounding whitespace and an optional sign around a
non-empty digit run; `none` models the `ValueError` raise.  (Underscore
digit grouping, which the repository's data never uses, is not modelled.) -/
def parsePyInt (s : List Char) : Option Int :=
  match pyStrip s with
  | '-' :: ds => if pyIsDigit ds then some (-(digitsToNat ds : Int)) else none
  | '+' :: ds => if pyIsDigit ds then some (digitsToNat ds : Int) else none
  | ds => if pyIsDigit ds then some (digitsToNat ds : Int) else none

/-- One loop iteration of `EEPROMDatabase.refresh`: unpack
`temperature, humidity, plant_id, target = line.split(",")` (a `ValueError`
when the line does not have exactly four fields), skip the line when the
first field is not all digits (the header check), otherwise advance the
simulated timestamp by `offset` and store the entry under
`(timestamp, plant_id)` with `target = not bool(int(target.strip()))`
(Python's `int` itself ignores the surrounding whitespace the explicit
`strip` removes).  The state is `(timestamp, database)`. -/
def refreshLine (offset : Nat) (st : Nat × Database) (line : List Char) :
    Except Unit (Nat × Database) :=
  match splitOnChar ',' line with
  | [temperature, humidity, plant_id, target] =>
    if pyIsDigit temperature = false then .ok st
    else
      match parsePyInt plant_id, parsePyInt temperature, parsePyInt humidity,
          parsePyInt target with
      | some pid, some tv, some hv, some tg =>
        .ok (st.1 + offset,
          dictInsert st.2 (st.1 + offset, pid)
            ⟨st.1 + offset, tv, hv, tg == 0⟩)
      | _, _, _, _ => .error ()
  | _ => .error ()

/-- The `async for line in file` loop of `refresh`: process the lines in
order, a raised error aborting the loop. -/
def refreshLoop (offset : Nat) (st : Nat × Database) :
    List (List Char) → Except Unit Database
  | [] => .ok st.2
  | line :: rest =>
    match refreshLine offset st line with
    | .ok st' => refreshLoop offset st' rest
    | .error e => .error e

/-- `EEPROMDatabase.refresh` over the historical file's contents, with the
synthesized-clock base and per-line offset as parameters (the source fixes
them to the literals 1708063280 and 10); `_database` starts empty, as
`connect` assigns `self._database = dict()` immediately before `refresh`. -/
def refreshFrom (base offset : Nat) (contents : List Char) :
    Except Unit Database :=
  refreshLoop offset (base, ([] : Database)) (pyLines contents)

/-- `EEPROMDatabase.refresh` with the source's literal base 1708063280 and
offset 10. -/
def refresh (contents : List Char) : Except Unit Database :=
  refreshFrom 1708063280 10 contents

/-- `_TTL = 60 * 60 * 24 * 7` from `eeprom.py` (one week, in seconds). -/
def _TTL : Nat := 60 * 60 * 24 * 7

/-- The live region's capacity ceiling: `TTLCache(maxsize=3_000_000, ...)`. -/
def _MAX_SIZE : Nat := 3000000

/-- The live region `self._real_time_samples`
(`cachetools.TTLCache(maxsize=3_000_000, ttl=_TTL)`, an external library
dependency, modelled from its semantics): entries as
`(key, value, insertTime)` kept in insertion order. -/
abbrev TTLCacheList (α : Type) : Type := List (Nat × α × Nat)

/-- `TTLCache.expire(now)`: drop every entry whose expiry has passed
(`expires < now`), i.e. keep `now ≤ insertTime + ttl`. -/
def cacheExpire {α : Type} (ttl : Nat) (c : TTLCacheList α) (now : Nat) :
    TTLCacheList α :=
  c.filter (fun e => decide (now ≤ e.2.2 + ttl))

/-- `TTLCache.__setitem__(key, value)` at clock `now`: purge expired
entries, unlink any existing entry for the key, evict oldest-inserted
entries while the insertion would exceed `maxsize`, then append the new
entry with a fresh expiry. -/
def cacheInsert {α : Type} (ttl maxsize : Nat) (c : TTLCacheList α)
    (now k : Nat) (v : α) : TTLCacheList α :=
  let c1 := (cacheExpire ttl c now).filter (fun e => decide (e.1 ≠ k))
  (c1.drop (c1.length + 1 - maxsize)) ++ [(k, v, now)]

/-- Repeated insertion; items are `(now, key, value)` in order (the
ingestion loop of `connect` performs
`self._real_time_samples[feature.timestamp] = (moisture, temperature)`
once per polled sample). -/
def cacheInsertAll {α : Type} (ttl maxsize : Nat) (c : TTLCacheList α)
    (items : List (Nat × Nat × α)) : TTLCacheList α :=
  items.foldl (fun acc it => cacheInsert ttl maxsize acc it.1 it.2.1 it.2.2) c

/-- `EEPROMDatabase.real_time_samples` visibility at clock `now`: an entry
is returned while its expiry lies strictly in the future
(`TTLCache.__getitem__` treats `expires ≤ now` as missing; the exact
boundary instant `now = insertTime + ttl`, where the library's iterator and
item lookup disagree, is implementation-defined and avoided by the
claims). -/
def real_time_samples {α : Type} (ttl : Nat) (c : TTLCacheList α) (now : Nat) :
    List (Nat × α) :=
  (c.filter (fun e => decide (now < e.2.2 + ttl))).map (fun e => (e.1, e.2.1))

/-- Concrete item list for the C6 witness: `_MAX_SIZE + 1` entries with
distinct keys, all inserted at clock 0. -/
def c6Items : List (Nat × Nat × Nat) :=
  (List.range (_MAX_SIZE + 1)).map (fun i => (0, i, 0))

/-- The adapter state the transfer gate lives in
(`BluetoothAdapter._read_enabled`). -/
structure BluetoothAdapterState where
  read_enabled : Bool

/-- `BluetoothAdapter.__init__`: the gate starts open
(`self._read_enabled = True`). -/
def initAdapter : BluetoothAdapterState := ⟨true⟩

/-- The gate-wait loop heading `BluetoothAdapter.read_data`
(`while not self._read_enabled: await asyncio.sleep(1)`): `gate t` is the
value of `_read_enabled` at time `t` under the interleaved upload; the
result is the time at which the read proceeds past the gate, the loop
re-checking once per 1-time-unit sleep (`none` when the fuel runs out with
the gate still closed). -/
def read_data_wait (gate : Nat → Bool) : Nat → Nat → Option Nat
  | t, fuel + 1 => if gate t then some t else read_data_wait gate (t + 1) fuel
  | _, 0 => none

/-- An advertised GATT characteristic of the connected peripheral's
service: identifier and capability list, the only fields the adapter
consults. -/
structure Characteristic where
  uuid : List Char
  properties : List (List Char)
deriving DecidableEq

/-- `_READ_TYPE = "read"`. -/
def _READ_TYPE : List Char := "read".toList

/-- `_WRITE_TYPE = "write"`. -/
def _WRITE_TYPE : List Char := "write".toList

/-- The moisture role's fixed identifier start, `"00001000"`. -/
def moistureUuidStart : List Char := "00001000".toList

/-- The temperature role's fixed identifier start, `"00002000"`. -/
def temperatureUuidStart : List Char := "00002000".toList

/-- The model role's fixed identifier start, `"00003000"`. -/
def modelUuidStart : List Char := "00003000".toList

/-- The filter of the endpoint properties:
`mode in characteristic.properties and characteristic.uuid.startswith(start)`. -/
def matchesRole (mode uuidStart : List Char) (c : Characteristic) : Bool :=
  c.properties.contains mode && uuidStart.isPrefixOf c.uuid

/-- `next((c for c in characteristics if ...), None)` followed by the
`raise CharacteristicNotFound(...)` on `None`: the first matching
characteristic of the connected service, or the error. -/
def resolveRole (mode uuidStart : List Char) (chars : List Characteristic) :
    Except Unit Characteristic :=
  match chars.find? (matchesRole mode uuidStart) with
  | some c => .ok c
  | none => .error ()

/-- The `moisture_sensor` property. -/
def moisture_sensor (chars : List Characteristic) : Except Unit Characteristic :=
  resolveRole _READ_TYPE moistureUuidStart chars

/-- The `temperature_sensor` property. -/
def temperature_sensor (chars : List Characteristic) : Except Unit Characteristic :=
  resolveRole _READ_TYPE temperatureUuidStart chars

/-- The `model_characteristic` property. -/
def model_characteristic (chars : List Characteristic) : Except Unit Characteristic :=
  resolveRole _WRITE_TYPE modelUuidStart chars

/-- Concrete characteristic for the C8 witness. -/
def c8Char : Characteristic :=
  ⟨"00001000-0000-1000-8000-00805f9b34fb".toList, ["read".toList]⟩

theorem getLast?_cons_ne_nil {β : Type} (a : β) (l : List β) (h : l ≠ []) :
    (a :: l).getLast? = l.getLast? := by
  cases l with
  | nil => exact absurd rfl h
  | cons b bs => rw [List.getLast?_cons_cons]

theorem getLast?_single {β : Type} (a : β) : ([a] : List β).getLast? = some a := by
  simp

theorem chunk_data_nil (size : Nat) : chunk_data [] size = [] := by
  rw [chunk_data]
  simp

theorem chunk_data_cons (data : List Nat) (size : Nat)
    (hs : size ≠ 0) (hd : data ≠ []) :
    chunk_data data size = data.take size :: chunk_data (data.drop size) size := by
  rw [chunk_data]
  rw [dif_neg]
  simp [hs, hd]

theorem chunk_data_flatten (size : Nat) (hs : size ≠ 0) :
    ∀ data : List Nat, (chunk_data data size).flatten = data := by
  have H : ∀ n (data : List Nat), data.length ≤ n →
      (chunk_data data size).flatten = data := by
    intro n
    induction n with
    | zero =>
      intro data hlen
      have : data = [] := by
        cases data with
        | nil => rfl
        | cons a as => simp at hlen
      subst this
      simp [chunk_data_nil]
    | succ n ih =>
      intro data hlen
      by_cases hd : data = []
      · subst hd; simp [chunk_data_nil]
      · rw [chunk_data_cons data size hs hd]
        have hlen2 : (data.drop size).length ≤ n := by
          simp only [List.length_drop]
          have : 0 < data.length := List.length_pos.mpr hd
          omega
        rw [List.flatten_cons, ih (data.drop size) hlen2, List.take_append_drop]
  intro data
  exact H data.length data le_rfl

theorem chunk_data_dropLast_length (size : Nat) (hs : size ≠ 0) :
    ∀ data : List Nat, ∀ c ∈ (chunk_data data size).dropLast, c.length = size := by
  have H : ∀ n (data : List Nat), data.length ≤ n →
      ∀ c ∈ (chunk_data data size).dropLast, c.length = size := by
    intro n
    induction n with
    | zero =>
      intro data hlen c hc
      have : data = [] := by
        cases data with
        | nil => rfl
        | cons a as => simp at hlen
      subst this
      simp [chunk_data_nil] at hc
    | succ n ih =>
      intro data hlen c hc
      by_cases hd : data = []
      · subst hd; simp [chunk_data_nil] at hc
      · rw [chunk_data_cons data size hs hd] at hc
        by_cases hrest : chunk_data (data.drop size) size = []
        · rw [hrest] at hc
          simp at hc
        · rw [List.dropLast_cons_of_ne_nil hrest] at hc
          rcases List.mem_cons.mp hc with h1 | h2
          · subst h1
            have hdrop : data.drop size ≠ [] := by
              intro hz
              rw [hz, chunk_data_nil] at hrest
              exact hrest rfl
            have : size < data.length := by
              by_contra hge
              push_neg at hge
              exact hdrop (List.drop_eq_nil_of_le hge)
            simp [List.length_take]
            omega
          · have hlen2 : (data.drop size).length ≤ n := by
              simp only [List.length_drop]
              have : 0 < data.length := List.length_pos.mpr hd
              omega
            exact ih (data.drop size) hlen2 c h2
  intro data
  exact H data.length data le_rfl

theorem chunk_data_last (size : Nat) (hs : size ≠ 0) :
    ∀ data : List Nat, data ≠ [] →
      ∃ l, (chunk_data data size).getLast? = some l ∧
        1 ≤ l.length ∧ l.length ≤ size := by
  have H : ∀ n (data : List Nat), data.length ≤ n → data ≠ [] →
      ∃ l, (chunk_data data size).getLast? = some l ∧
        1 ≤ l.length ∧ l.length ≤ size := by
    intro n
    induction n with
    | zero =>
      intro data hlen hd
      exfalso
      cases data with
      | nil => exact hd rfl
      | cons a as => simp at hlen
    | succ n ih =>
      intro data hlen hd
      rw [chunk_data_cons data size hs hd]
      by_cases hrest : chunk_data (data.drop size) size = []
      · refine ⟨data.take size, ?_, ?_, ?_⟩
        · rw [hrest]
          exact getLast?_single _
        · have : 0 < data.length := List.length_pos.mpr hd
          simp [List.length_take]
          omega
        · simp [List.length_take]
      · have hdrop : data.drop size ≠ [] := by
          intro hz
          rw [hz, chunk_data_nil] at hrest
          exact hrest rfl
        have hlen2 : (data.drop size).length ≤ n := by
          simp only [List.length_drop]
          have : 0 < data.length := List.length_pos.mpr hd
          omega
        obtain ⟨l, hl, h1, h2⟩ := ih (data.drop size) hlen2 hdrop
        refine ⟨l, ?_, h1, h2⟩
        rw [getLast?_cons_ne_nil _ _ hrest]
        exact hl
  intro data hd
  exact H data.length data le_rfl hd

theorem chunk_data_length_512 :
    ∀ data : List Nat, (chunk_data data 512).length = (data.length + 511) / 512 := by
  have H : ∀ n (data : List Nat), data.length ≤ n →
      (chunk_data data 512).length = (data.length + 511) / 512 := by
    intro n
    induction n with
    | zero =>
      intro data hlen
      have : data = [] := by
        cases data with
        | nil => rfl
        | cons a as => simp at hlen
      subst this
      simp [chunk_data_nil]
    | succ n ih =>
      intro data hlen
      by_cases hd : data = []
      · subst hd; simp [chunk_data_nil]
      · rw [chunk_data_cons data 512 (by omega) hd]
        have hlen2 : (data.drop 512).length ≤ n := by
          simp only [List.length_drop]
          have : 0 < data.length := List.length_pos.mpr hd
          omega
        have hpos : 0 < data.length := List.length_pos.mpr hd
        simp only [List.length_cons]
        rw [ih (data.drop 512) hlen2]
        simp only [List.length_drop]
        omega
  intro data
  exact H data.length data le_rfl

theorem chunk_data_last_length_512 :
    ∀ data : List Nat, data ≠ [] →
      ∃ l, (chunk_data data 512).getLast? = some l ∧
        l.length = if data.length % 512 = 0 then 512 else data.length % 512 := by
  have H : ∀ n (data : List Nat), data.length ≤ n → data ≠ [] →
      ∃ l, (chunk_data data 512).getLast? = some l ∧
        l.length = if data.length % 512 = 0 then 512 else data.length % 512 := by
    intro n
    induction n with
    | zero =>
      intro data hlen hd
      exfalso
      cases data with
      | nil => exact hd rfl
      | cons a as => simp at hlen
    | succ n ih =>
      intro data hlen hd
      have hpos : 0 < data.length := List.length_pos.mpr hd
      rw [chunk_data_cons data 512 (by omega) hd]
      by_cases hrest : chunk_data (data.drop 512) 512 = []
      · have hdrop : data.drop 512 = [] := by
          by_contra hz
          rw [chunk_data_cons (data.drop 512) 512 (by omega) hz] at hrest
          exact List.cons_ne_nil _ _ hrest
        have hle : data.length ≤ 512 := by
          by_contra hgt
          push_neg at hgt
          have : (data.drop 512).length = data.length - 512 := List.length_drop _ _
          rw [hdrop] at this
          simp at this
          omega
        refine ⟨data.take 512, ?_, ?_⟩
        · rw [hrest]
          exact getLast?_single _
        · by_cases hmod : data.length % 512 = 0
          · have h512 : data.length = 512 := by omega
            simp [List.length_take, h512, hmod]
          · simp [List.length_take, hmod]
            omega
      · have hdrop : data.drop 512 ≠ [] := by
          intro hz
          rw [hz, chunk_data_nil] at hrest
          exact hrest rfl
        have hgt : 512 < data.length := by
          by_contra hge
          push_neg at hge
          exact hdrop (List.drop_eq_nil_of_le hge)
        have hlen2 : (data.drop 512).length ≤ n := by
          simp only [List.length_drop]
          omega
        obtain ⟨l, hl, h2⟩ := ih (data.drop 512) hlen2 hdrop
        refine ⟨l, ?_, ?_⟩
        · rw [getLast?_cons_ne_nil _ _ hrest]
          exact hl
        · rw [h2]
          simp only [List.length_drop]
          have e1 : (data.length - 512) % 512 = data.length % 512 := by omega
          rw [e1]
  intro data hd
  exact H data.length data le_rfl hd

/-- C9: for every byte sequence `d` and chunk size `s > 0`, `chunk_data d s`
concatenates back to `d`, every chunk except possibly the last has length
exactly `s`, a non-empty `d` gives a last chunk of length between 1 and `s`,
and an empty `d` gives the empty list. -/
theorem c9_chunk_data_partition (data : List Nat) (size : Nat) (hs : 0 < size) :
    (chunk_data data size).flatten = data ∧
    (∀ c ∈ (chunk_data data size).dropLast, c.length = size) ∧
    (data ≠ [] → ∃ l, (chunk_data data size).getLast? = some l ∧
      1 ≤ l.length ∧ l.length ≤ size) ∧
    (data = [] → chunk_data data size = []) := by
  refine ⟨chunk_data_flatten size (by omega) data,
    chunk_data_dropLast_length size (by omega) data,
    chunk_data_last size (by omega) data, ?_⟩
  intro h
  subst h
  exact chunk_data_nil size

theorem c9_chunk_data_partition_witness :
    0 < 2 ∧
    ((chunk_data [1, 2, 3] 2).flatten = [1, 2, 3] ∧
      (∀ c ∈ (chunk_data [1, 2, 3] 2).dropLast, c.length = 2) ∧
      ([1, 2, 3] ≠ ([] : List Nat) → ∃ l, (chunk_data [1, 2, 3] 2).getLast? = some l ∧
        1 ≤ l.length ∧ l.length ≤ 2) ∧
      ([1, 2, 3] = ([] : List Nat) → chunk_data [1, 2, 3] 2 = [])) :=
  ⟨by norm_num, c9_chunk_data_partition [1, 2, 3] 2 (by norm_num)⟩

/-- C1: an upload of `L ≤ 512` bytes writes exactly one fragment (the whole
artifact) and no sentinel; an upload of `L > 512` bytes writes the
`ceil(L / 512)` data chunks in order (each of length 512 except the last,
whose length is `L mod 512`, or 512 when 512 divides `L`) followed by
exactly one sentinel fragment equal to the fixed ASCII literal. -/
theorem c1_send_data_chunking (data : List Nat) :
    (data.length ≤ 512 → send_data_fragments data = [data]) ∧
    (data.length > 512 →
      send_data_fragments data = chunk_data data 512 ++ [_END_SEQUENCE] ∧
      (chunk_data data 512).length = (data.length + 511) / 512 ∧
      (chunk_data data 512).flatten = data ∧
      (∀ c ∈ (chunk_data data 512).dropLast, c.length = 512) ∧
      ∃ l, (chunk_data data 512).getLast? = some l ∧
        l.length = if data.length % 512 = 0 then 512 else data.length % 512) := by
  constructor
  · intro h
    rw [send_data_fragments, if_neg (by omega)]
  · intro h
    have hd : data ≠ [] := by
      intro hz
      subst hz
      simp at h
    refine ⟨?_, chunk_data_length_512 data, chunk_data_flatten 512 (by omega) data,
      chunk_data_dropLast_length 512 (by omega) data,
      chunk_data_last_length_512 data hd⟩
    rw [send_data_fragments, if_pos h]

theorem c1_send_data_chunking_witness :
    c1WitnessData.length > 512 ∧
    (send_data_fragments c1WitnessData = chunk_data c1WitnessData 512 ++ [_END_SEQUENCE] ∧
      (chunk_data c1WitnessData 512).length = (c1WitnessData.length + 511) / 512 ∧
      (chunk_data c1WitnessData 512).flatten = c1WitnessData ∧
      (∀ c ∈ (chunk_data c1WitnessData 512).dropLast, c.length = 512) ∧
      ∃ l, (chunk_data c1WitnessData 512).getLast? = some l ∧
        l.length = if c1WitnessData.length % 512 = 0 then 512
          else c1WitnessData.length % 512) :=
  ⟨by simp only [c1WitnessData, List.length_replicate]; omega,
    (c1_send_data_chunking c1WitnessData).2
      (by simp only [c1WitnessData, List.length_replicate]; omega)⟩

/-- C2: the claim says every `send_data` invocation ends with the transfer
gate reopened, including failure paths.  The source has no try/finally:
when a fragment write raises, the method propagates the error before the
final `self._read_enabled = True`, so the gate stays closed.  Concretely, a
1-byte upload whose single write fails ends with `_read_enabled = false`. -/
theorem c2_gate_left_closed_on_failure :
    send_data_run [0] (fun _ => false) = (.error (), false) := rfl

theorem foldl_pyMax_spec (f : DatabaseEntry → Nat) (xs : List DatabaseEntry) :
    ∀ x : DatabaseEntry,
      ((xs.foldl (fun best y => if f best < f y then y else best) x) = x ∨
        (xs.foldl (fun best y => if f best < f y then y else best) x) ∈ xs) ∧
      f x ≤ f (xs.foldl (fun best y => if f best < f y then y else best) x) ∧
      ∀ y ∈ xs, f y ≤ f (xs.foldl (fun best y => if f best < f y then y else best) x) := by
  induction xs with
  | nil => intro x; simp
  | cons y ys ih =>
    intro x
    simp only [List.foldl_cons]
    obtain ⟨hmem, hle, hall⟩ := ih (if f x < f y then y else x)
    have hxle : f x ≤ f (if f x < f y then y else x) := by
      by_cases hc : f x < f y
      · rw [if_pos hc]; omega
      · rw [if_neg hc]
    have hyle : f y ≤ f (if f x < f y then y else x) := by
      by_cases hc : f x < f y
      · rw [if_pos hc]
      · rw [if_neg hc]; omega
    refine ⟨?_, le_trans hxle hle, ?_⟩
    · rcases hmem with h | h
      · rw [h]
        by_cases hc : f x < f y
        · rw [if_pos hc]
          right
          exact List.mem_cons_self _ _
        · rw [if_neg hc]
          left
          rfl
      · right
        exact List.mem_cons_of_mem _ h
    · intro z hz
      rcases List.mem_cons.mp hz with h | h
      · subst h
        exact le_trans hyle hle
      · exact hall z h

theorem pyMaxBy_spec (f : DatabaseEntry → Nat) (l : List DatabaseEntry)
    (m : DatabaseEntry) (h : pyMaxBy f l = some m) :
    m ∈ l ∧ ∀ y ∈ l, f y ≤ f m := by
  cases l with
  | nil => simp [pyMaxBy] at h
  | cons x xs =>
    rw [pyMaxBy, Option.some_inj] at h
    obtain ⟨hmem, hle, hall⟩ := foldl_pyMax_spec f xs x
    rw [h] at hmem hle hall
    constructor
    · rcases hmem with h1 | h1
      · rw [h1]; exact List.mem_cons_self _ _
      · exact List.mem_cons_of_mem _ h1
    · intro y hy
      rcases List.mem_cons.mp hy with h1 | h1
      · subst h1; exact hle
      · exact hall y h1

theorem pyMaxBy_eq_none (f : DatabaseEntry → Nat) (l : List DatabaseEntry) :
    pyMaxBy f l = none ↔ l = [] := by
  cases l <;> simp [pyMaxBy]

/-- C4: `get_latest_entry p t` returns an entry stored under a key matching
plant id `p` with timestamp at most `t` whose timestamp is maximal among all
such keys, and `none` (not an error) when no stored key matches; on the
claim's concrete store the four queries behave as stated.  The hypothesis
records the writer-maintained invariant that each stored entry's
`datetime_utc` equals its key's timestamp (`refresh` and `load_samples` both
key an entry by the very timestamp they store in it). -/
theorem c4_get_latest_entry (d : Database) (plant_id : Int) (timestamp : Nat)
    (hinv : ∀ kv ∈ d, kv.2.datetime_utc = kv.1.1) :
    (get_latest_entry d plant_id timestamp = none ↔
      ∀ kv ∈ d, ¬(kv.1.2 = plant_id ∧ kv.1.1 ≤ timestamp)) ∧
    (∀ e, get_latest_entry d plant_id timestamp = some e →
      ∃ kv, kv ∈ d ∧ kv.2 = e ∧ kv.1.2 = plant_id ∧ kv.1.1 ≤ timestamp ∧
        ∀ kv', kv' ∈ d → kv'.1.2 = plant_id → kv'.1.1 ≤ timestamp →
          kv'.1.1 ≤ kv.1.1) ∧
    (∀ a b c : Bool,
      get_latest_entry
        [((10, 1), ⟨10, 0, 0, a⟩), ((20, 1), ⟨20, 0, 0, b⟩), ((20, 2), ⟨20, 0, 0, c⟩)]
        1 15 = some ⟨10, 0, 0, a⟩ ∧
      get_latest_entry
        [((10, 1), ⟨10, 0, 0, a⟩), ((20, 1), ⟨20, 0, 0, b⟩), ((20, 2), ⟨20, 0, 0, c⟩)]
        1 20 = some ⟨20, 0, 0, b⟩ ∧
      get_latest_entry
        [((10, 1), ⟨10, 0, 0, a⟩), ((20, 1), ⟨20, 0, 0, b⟩), ((20, 2), ⟨20, 0, 0, c⟩)]
        1 5 = none ∧
      get_latest_entry
        [((10, 1), ⟨10, 0, 0, a⟩), ((20, 1), ⟨20, 0, 0, b⟩), ((20, 2), ⟨20, 0, 0, c⟩)]
        2 25 = some ⟨20, 0, 0, c⟩) := by
  refine ⟨?_, ?_, ?_⟩
  · rw [get_latest_entry, pyMaxBy_eq_none, List.map_eq_nil_iff, List.filter_eq_nil_iff]
    constructor
    · intro h kv hkv hpred
      have := h kv hkv
      simp only [Bool.and_eq_true, decide_eq_true_eq] at this
      exact this ⟨hpred.1, hpred.2⟩
    · intro h kv hkv
      simp only [Bool.and_eq_true, decide_eq_true_eq]
      intro hpred
      exact h kv hkv ⟨hpred.1, hpred.2⟩
  · intro e he
    rw [get_latest_entry] at he
    obtain ⟨hmem, hmax⟩ := pyMaxBy_spec _ _ _ he
    obtain ⟨kv, hkvf, hkve⟩ := List.mem_map.mp hmem
    have hkv := List.mem_filter.mp hkvf
    have hcond := hkv.2
    simp only [Bool.and_eq_true, decide_eq_true_eq] at hcond
    refine ⟨kv, hkv.1, hkve, hcond.1, hcond.2, ?_⟩
    intro kv' hkv' hp' ht'
    have hmem' : kv'.2 ∈ (d.filter
        (fun kv => decide (kv.1.2 = plant_id) && decide (kv.1.1 ≤ timestamp))).map
        Prod.snd := by
      refine List.mem_map.mpr ⟨kv', List.mem_filter.mpr ⟨hkv', ?_⟩, rfl⟩
      simp [hp', ht']
    have hle := hmax _ hmem'
    have h1 := hinv kv' hkv'
    have h2 := hinv kv hkv.1
    rw [h1] at hle
    rw [← hkve, h2] at hle
    exact hle
  · intro a b c
    exact ⟨rfl, rfl, rfl, rfl⟩

theorem c4_get_latest_entry_witness :
    (∀ kv ∈ ([((10, 1), ⟨10, 0, 0, true⟩)] : Database), kv.2.datetime_utc = kv.1.1) ∧
    ((get_latest_entry [((10, 1), ⟨10, 0, 0, true⟩)] 1 15 = none ↔
      ∀ kv ∈ ([((10, 1), ⟨10, 0, 0, true⟩)] : Database),
        ¬(kv.1.2 = 1 ∧ kv.1.1 ≤ 15)) ∧
    (∀ e, get_latest_entry [((10, 1), ⟨10, 0, 0, true⟩)] 1 15 = some e →
      ∃ kv, kv ∈ ([((10, 1), ⟨10, 0, 0, true⟩)] : Database) ∧ kv.2 = e ∧
        kv.1.2 = 1 ∧ kv.1.1 ≤ 15 ∧
        ∀ kv', kv' ∈ ([((10, 1), ⟨10, 0, 0, true⟩)] : Database) →
          kv'.1.2 = 1 → kv'.1.1 ≤ 15 → kv'.1.1 ≤ kv.1.1) ∧
    (∀ a b c : Bool,
      get_latest_entry
        [((10, 1), ⟨10, 0, 0, a⟩), ((20, 1), ⟨20, 0, 0, b⟩), ((20, 2), ⟨20, 0, 0, c⟩)]
        1 15 = some ⟨10, 0, 0, a⟩ ∧
      get_latest_entry
        [((10, 1), ⟨10, 0, 0, a⟩), ((20, 1), ⟨20, 0, 0, b⟩), ((20, 2), ⟨20, 0, 0, c⟩)]
        1 20 = some ⟨20, 0, 0, b⟩ ∧
      get_latest_entry
        [((10, 1), ⟨10, 0, 0, a⟩), ((20, 1), ⟨20, 0, 0, b⟩), ((20, 2), ⟨20, 0, 0, c⟩)]
        1 5 = none ∧
      get_latest_entry
        [((10, 1), ⟨10, 0, 0, a⟩), ((20, 1), ⟨20, 0, 0, b⟩), ((20, 2), ⟨20, 0, 0, c⟩)]
        2 25 = some ⟨20, 0, 0, c⟩)) :=
  ⟨by decide, c4_get_latest_entry [((10, 1), ⟨10, 0, 0, true⟩)] 1 15 (by decide)⟩

/-- C10: before `connect` has initialized the store, or after `disconnect`
has discarded the historical region, every public historical-region
operation (`entries`, `get_entry`, `get_latest_entry`) raises the
initialization error instead of returning an empty or not-found result;
`__init__` starts unconnected and `disconnect` is terminal. -/
theorem c10_uninitialized_errors (s : EEPROMDatabaseState) (timestamp : Nat)
    (plant_id : Int) (h : s._database = none) :
    initState._database = none ∧
    (disconnectOp s)._database = none ∧
    entriesOp s = .error () ∧
    getEntryOp s timestamp plant_id = .error () ∧
    getLatestEntryOp s plant_id timestamp = .error () := by
  have hdb : databaseProp s = .error () := by
    rw [databaseProp, h]
  refine ⟨rfl, rfl, ?_, ?_, ?_⟩ <;>
    simp [entriesOp, getEntryOp, getLatestEntryOp, hdb, Except.map]

theorem c10_uninitialized_errors_witness :
    initState._database = none ∧
    (initState._database = none ∧
      (disconnectOp initState)._database = none ∧
      entriesOp initState = .error () ∧
      getEntryOp initState 0 1 = .error () ∧
      getLatestEntryOp initState 1 0 = .error ()) :=
  ⟨rfl, c10_uninitialized_errors initState 0 1 rfl⟩

/-- C3: the claim runs `refresh` on the exact input
`"header\n20,50,1,1\n21,49,1,0\n"` and expects normal termination with the
header skipped.  In the source the four-way tuple unpack of
`line.split(",")` happens before the header check, and `"header\n"` splits
into a single field, so the unpack raises `ValueError` and `refresh` fails
instead of terminating normally. -/
theorem c3_counterexample :
    refresh ("header\n20,50,1,1\n21,49,1,0\n".toList) = .error () := rfl

/-- C3 (amended): with the header line in the claim's input replaced by a
comma-separated one whose first field is not an integer (here `"a,b,c,d"`),
`refresh` with base timestamp `T` and per-line step `S > 0` terminates
normally with the historical region holding exactly two entries keyed
`(T+S, 1)` and `(T+2S, 1)` whose stored targets are `false` and `true`
(the stored target negates `raw == 1`), the header line being skipped
because its first field does not parse as an integer. -/
theorem c3_amended_refresh (base offset : Nat) (hoff : 0 < offset) :
    refreshFrom base offset ("a,b,c,d\n20,50,1,1\n21,49,1,0\n".toList) =
      .ok [((base + offset, 1), ⟨base + offset, 20, 50, false⟩),
           ((base + offset + offset, 1), ⟨base + offset + offset, 21, 49, true⟩)] := by
  have hne : ((base + offset : Nat), (1 : Int)) ≠
      ((base + offset + offset : Nat), (1 : Int)) := by
    intro h
    have h1 : base + offset = base + offset + offset := congrArg Prod.fst h
    omega
  have step : refreshFrom base offset ("a,b,c,d\n20,50,1,1\n21,49,1,0\n".toList) =
      .ok (dictInsert
        (dictInsert [] (base + offset, 1) ⟨base + offset, 20, 50, false⟩)
        (base + offset + offset, 1) ⟨base + offset + offset, 21, 49, true⟩) := rfl
  rw [step]
  simp [dictInsert, hne]

theorem c3_amended_refresh_witness :
    0 < 10 ∧
    refreshFrom 1708063280 10 ("a,b,c,d\n20,50,1,1\n21,49,1,0\n".toList) =
      .ok [((1708063290, 1), ⟨1708063290, 20, 50, false⟩),
           ((1708063300, 1), ⟨1708063300, 21, 49, true⟩)] := by
  have h := c3_amended_refresh 1708063280 10 (by norm_num)
  norm_num at h
  exact ⟨by norm_num, h⟩

theorem drop_append_of_le {β : Type} (l₁ l₂ : List β) (n : Nat)
    (h : n ≤ l₁.length) : (l₁ ++ l₂).drop n = l₁.drop n ++ l₂ := by
  induction l₁ generalizing n with
  | nil =>
    simp at h
    simp [h]
  | cons a as ih =>
    cases n with
    | zero => simp
    | succ m =>
      simp only [List.cons_append, List.drop_succ_cons]
      exact ih m (by simpa using h)

theorem cacheInsertAll_fresh {α : Type} (ttl maxsize : Nat) (hmax : 0 < maxsize) :
    ∀ (items : List (Nat × Nat × α)) (c : TTLCacheList α),
      c.length ≤ maxsize →
      (∀ e ∈ c, ∀ it ∈ items, it.1 ≤ e.2.2 + ttl ∧ e.1 ≠ it.2.1) →
      items.Pairwise (fun a b => b.1 ≤ a.1 + ttl ∧ a.2.1 ≠ b.2.1) →
      cacheInsertAll ttl maxsize c items =
        (c ++ items.map (fun it => (it.2.1, it.2.2, it.1))).drop
          (c.length + items.length - maxsize) := by
  intro items
  induction items with
  | nil =>
    intro c hc _ _
    have h0 : c.length - maxsize = 0 := by omega
    simp [cacheInsertAll, h0]
  | cons it its ih =>
    intro c hc hnew hpair
    have hexp : cacheExpire ttl c it.1 = c := by
      apply List.filter_eq_self.mpr
      intro e he
      simp only [decide_eq_true_eq]
      exact (hnew e he it (List.mem_cons_self _ _)).1
    have hdedup : c.filter (fun e => !decide (e.1 = it.2.1)) = c := by
      apply List.filter_eq_self.mpr
      intro e he
      simp only [Bool.not_eq_true', decide_eq_false_iff_not]
      exact (hnew e he it (List.mem_cons_self _ _)).2
    have hstep : cacheInsert ttl maxsize c it.1 it.2.1 it.2.2 =
        c.drop (c.length + 1 - maxsize) ++ [(it.2.1, it.2.2, it.1)] := by
      simp [cacheInsert, hexp, hdedup]
    have hd : c.length + 1 - maxsize ≤ c.length := by omega
    have hpc := List.pairwise_cons.mp hpair
    have hc' : (c.drop (c.length + 1 - maxsize) ++ [(it.2.1, it.2.2, it.1)]).length ≤
        maxsize := by
      simp [List.length_drop]
      omega
    have hnew' : ∀ e ∈ c.drop (c.length + 1 - maxsize) ++ [(it.2.1, it.2.2, it.1)],
        ∀ it' ∈ its, it'.1 ≤ e.2.2 + ttl ∧ e.1 ≠ it'.2.1 := by
      intro e he it' hit'
      rcases List.mem_append.mp he with h | h
      · exact hnew e (List.mem_of_mem_drop h) it' (List.mem_cons_of_mem _ hit')
      · have he2 : e = (it.2.1, it.2.2, it.1) := by simpa using h
        subst he2
        exact ⟨(hpc.1 it' hit').1, (hpc.1 it' hit').2⟩
    have IH := ih (c.drop (c.length + 1 - maxsize) ++ [(it.2.1, it.2.2, it.1)])
      hc' hnew' hpc.2
    rw [cacheInsertAll] at IH ⊢
    rw [List.foldl_cons, hstep, IH]
    rw [List.append_assoc, List.singleton_append]
    have hsplit : List.drop (c.length + 1 - maxsize) c ++
        ((it.2.1, it.2.2, it.1) :: List.map (fun it => (it.2.1, it.2.2, it.1)) its) =
        List.drop (c.length + 1 - maxsize)
          (c ++ (it.2.1, it.2.2, it.1) ::
            List.map (fun it => (it.2.1, it.2.2, it.1)) its) :=
      (drop_append_of_le c _ (c.length + 1 - maxsize) hd).symm
    rw [hsplit, List.drop_drop]
    simp only [List.map_cons]
    congr 1
    simp [List.length_drop]
    omega

/-- C6: inserting `_MAX_SIZE + 1` live entries with pairwise-distinct keys,
none of which expires during the run, leaves exactly `_MAX_SIZE` entries in
the live region, the entries kept being all but the first inserted — the
single absent entry is the oldest-inserted one. -/
theorem c6_capacity_eviction {α : Type} (items : List (Nat × Nat × α))
    (hlen : items.length = _MAX_SIZE + 1)
    (hpair : items.Pairwise (fun a b => b.1 ≤ a.1 + _TTL ∧ a.2.1 ≠ b.2.1)) :
    cacheInsertAll _TTL _MAX_SIZE [] items =
      (items.map (fun it => (it.2.1, it.2.2, it.1))).drop 1 ∧
    (cacheInsertAll _TTL _MAX_SIZE [] items).length = _MAX_SIZE ∧
    (∀ it0, items.head? = some it0 →
      ∀ e ∈ cacheInsertAll _TTL _MAX_SIZE [] items, e.1 ≠ it0.2.1) := by
  have hmax : 0 < _MAX_SIZE := by norm_num [_MAX_SIZE]
  have h1 := cacheInsertAll_fresh _TTL _MAX_SIZE hmax items [] (by simp)
    (by intro e he; simp at he) hpair
  have h0 : List.length ([] : TTLCacheList α) + items.length - _MAX_SIZE = 1 := by
    simp [hlen]
  rw [h0] at h1
  simp only [List.nil_append] at h1
  refine ⟨h1, ?_, ?_⟩
  · rw [h1]
    simp [hlen]
  · intro it0 hhead e hmem
    rw [h1] at hmem
    cases items with
    | nil => simp at hhead
    | cons a rest =>
      have ha : a = it0 := by simpa using hhead
      subst ha
      simp only [List.map_cons, List.drop_succ_cons, List.drop_zero] at hmem
      obtain ⟨b, hb, hbe⟩ := List.mem_map.mp hmem
      have := (List.pairwise_cons.mp hpair).1 b hb
      rw [← hbe]
      exact fun hcontra => this.2 hcontra.symm

theorem c6_capacity_eviction_witness :
    c6Items.length = _MAX_SIZE + 1 ∧
    (cacheInsertAll _TTL _MAX_SIZE [] c6Items =
      (c6Items.map (fun it => (it.2.1, it.2.2, it.1))).drop 1 ∧
    (cacheInsertAll _TTL _MAX_SIZE [] c6Items).length = _MAX_SIZE ∧
    (∀ it0, c6Items.head? = some it0 →
      ∀ e ∈ cacheInsertAll _TTL _MAX_SIZE [] c6Items, e.1 ≠ it0.2.1)) := by
  have hlen : c6Items.length = _MAX_SIZE + 1 := by
    simp [c6Items]
  have hpair : c6Items.Pairwise (fun a b => b.1 ≤ a.1 + _TTL ∧ a.2.1 ≠ b.2.1) := by
    have hp := List.pairwise_lt_range (_MAX_SIZE + 1)
    exact List.Pairwise.map _ (fun a b hab => ⟨Nat.zero_le _, Nat.ne_of_lt hab⟩) hp
  exact ⟨hlen, c6_capacity_eviction c6Items hlen hpair⟩

/-- C7: a live entry inserted at clock `t0` (TTL fixed at 604800 time
units) is visible to `real_time_samples` at every query time up to and
including `t0 + TTL - 1`, and invisible from `t0 + TTL + 1` onward — the
visibility filter applies whether or not the entry has been physically
purged. -/
theorem c7_live_ttl_visibility {α : Type} (c : TTLCacheList α) (k : Nat)
    (v : α) (t0 now : Nat) (hmem : (k, v, t0) ∈ c)
    (hkeys : (c.map (fun e => e.1)).Nodup) :
    (now ≤ t0 + _TTL - 1 → (k, v) ∈ real_time_samples _TTL c now) ∧
    (t0 + _TTL + 1 ≤ now → ∀ w, (k, w) ∉ real_time_samples _TTL c now) := by
  have httl : _TTL = 604800 := by norm_num [_TTL]
  constructor
  · intro hnow
    rw [httl] at hnow
    refine List.mem_map.mpr ⟨(k, v, t0), List.mem_filter.mpr ⟨hmem, ?_⟩, rfl⟩
    simp only [decide_eq_true_eq, httl]
    omega
  · intro hnow w hw
    rw [httl] at hnow
    obtain ⟨e, hef, hek⟩ := List.mem_map.mp hw
    have he := List.mem_filter.mp hef
    have hlt : now < e.2.2 + _TTL := by simpa using he.2
    rw [httl] at hlt
    have hkeq : e.1 = k := congrArg Prod.fst hek
    have heq : e = (k, v, t0) := by
      apply List.inj_on_of_nodup_map hkeys he.1 hmem
      simpa using hkeq
    rw [heq] at hlt
    simp at hlt
    omega

theorem c7_live_ttl_visibility_witness :
    ((5, 7, 100) ∈ ([(5, 7, 100)] : TTLCacheList Nat)) ∧
    (([(5, 7, 100)] : TTLCacheList Nat).map (fun e => e.1)).Nodup ∧
    ((604899 ≤ 100 + _TTL - 1 →
        ((5 : Nat), (7 : Nat)) ∈ real_time_samples _TTL [(5, 7, 100)] 604899) ∧
      (100 + _TTL + 1 ≤ 604899 →
        ∀ w, ((5 : Nat), w) ∉ real_time_samples _TTL [(5, 7, 100)] 604899)) :=
  ⟨by decide, by decide,
    c7_live_ttl_visibility [(5, 7, 100)] 5 7 100 604899 (by decide) (by decide)⟩

theorem read_data_wait_spec (gate : Nat → Bool) :
    ∀ fuel t t', read_data_wait gate t fuel = some t' →
      gate t' = true ∧ t ≤ t' ∧ ∀ u, t ≤ u → u < t' → gate u = false := by
  intro fuel
  induction fuel with
  | zero =>
    intro t t' h
    simp [read_data_wait] at h
  | succ n ih =>
    intro t t' h
    rw [read_data_wait] at h
    by_cases hg : gate t
    · rw [if_pos hg] at h
      obtain rfl : t = t' := by simpa using h
      exact ⟨hg, le_rfl, fun u hu1 hu2 => absurd hu1 (by omega)⟩
    · rw [if_neg hg] at h
      obtain ⟨h1, h2, h3⟩ := ih (t + 1) t' h
      refine ⟨h1, by omega, ?_⟩
      intro u hu1 hu2
      by_cases hu : u = t
      · subst hu
        simpa using hg
      · exact h3 u (by omega) hu2

/-- C5: the gate's initial state permits reads; a waiting reader re-checks
the gate once per 1-time-unit sleep; a read completes only at a time when
the gate is open, every instant from its start to its completion seeing the
gate closed — hence a read started at or after a close during whose wait
the gate stays closed until `openT` cannot complete before `openT`. -/
theorem c5_gate_discipline :
    initAdapter.read_enabled = true ∧
    (∀ gate t fuel, gate t = false →
      read_data_wait gate t (fuel + 1) = read_data_wait gate (t + 1) fuel) ∧
    (∀ gate t fuel t', read_data_wait gate t fuel = some t' →
      gate t' = true ∧ t ≤ t' ∧ ∀ u, t ≤ u → u < t' → gate u = false) ∧
    (∀ gate closeT openT t fuel t',
      (∀ u, closeT ≤ u → u < openT → gate u = false) →
      closeT ≤ t → read_data_wait gate t fuel = some t' → openT ≤ t') := by
  refine ⟨rfl, ?_, ?_, ?_⟩
  · intro gate t fuel hg
    rw [read_data_wait, if_neg (by simp [hg])]
  · intro gate t fuel t' h
    exact read_data_wait_spec gate fuel t t' h
  · intro gate closeT openT t fuel t' hclosed hct h
    obtain ⟨h1, h2, _⟩ := read_data_wait_spec gate fuel t t' h
    by_contra hlt
    push_neg at hlt
    have hfalse := hclosed t' (by omega) hlt
    rw [hfalse] at h1
    exact absurd h1 (by simp)

theorem c5_gate_discipline_witness :
    (∀ u, 1 ≤ u → u < 5 → (fun u => decide (5 ≤ u)) u = false) ∧ 1 ≤ 2 ∧
    read_data_wait (fun u => decide (5 ≤ u)) 2 10 = some 5 ∧ 5 ≤ 5 := by
  refine ⟨?_, by norm_num, rfl, ?_⟩
  · intro u h1 h2
    simp
    omega
  · exact c5_gate_discipline.2.2.2 (fun u => decide (5 ≤ u)) 1 5 2 10 5
      (fun u h1 h2 => by simp; omega) (by norm_num) rfl

theorem find?_first {β : Type} (p : β → Bool) (l : List β) (c : β)
    (h : l.find? p = some c) :
    p c = true ∧ ∃ l₁ l₂, l = l₁ ++ c :: l₂ ∧ ∀ x ∈ l₁, p x = false := by
  induction l with
  | nil => simp at h
  | cons a as ih =>
    by_cases hp : p a
    · rw [List.find?_cons_of_pos _ hp] at h
      obtain rfl : a = c := by simpa using h
      exact ⟨hp, [], as, rfl, by simp⟩
    · rw [List.find?_cons_of_neg _ (by simpa using hp)] at h
      obtain ⟨h1, l₁, l₂, h2, h3⟩ := ih h
      refine ⟨h1, a :: l₁, l₂, by rw [h2]; rfl, ?_⟩
      intro x hx
      rcases List.mem_cons.mp hx with h4 | h4
      · subst h4
        simpa using hp
      · exact h3 x h4

theorem resolveRole_spec (mode uuidStart : List Char) (chars : List Characteristic) :
    (∀ c, resolveRole mode uuidStart chars = .ok c →
      matchesRole mode uuidStart c = true ∧
      ∃ l₁ l₂, chars = l₁ ++ c :: l₂ ∧
        ∀ x ∈ l₁, matchesRole mode uuidStart x = false) ∧
    (resolveRole mode uuidStart chars = .error () ↔
      ∀ c ∈ chars, matchesRole mode uuidStart c = false) := by
  constructor
  · intro c hc
    rw [resolveRole] at hc
    cases hfind : chars.find? (matchesRole mode uuidStart) with
    | none =>
      rw [hfind] at hc
      simp at hc
    | some c' =>
      rw [hfind] at hc
      obtain rfl : c' = c := by simpa using hc
      exact find?_first _ _ _ hfind
  · cases hfind : chars.find? (matchesRole mode uuidStart) with
    | none =>
      rw [resolveRole, hfind]
      constructor
      · intro _ c hc
        have := List.find?_eq_none.mp hfind c hc
        simpa using this
      · intro _
        rfl
    | some c' =>
      rw [resolveRole, hfind]
      constructor
      · intro h
        exact absurd h (by simp)
      · intro hall
        have hc' := List.mem_of_find?_eq_some hfind
        have h1 := (find?_first _ _ _ hfind).1
        rw [hall c' hc'] at h1
        simp at h1

/-- C8: each of the three role endpoints resolves to the first advertised
characteristic of the connected service whose identifier starts with that
role's fixed prefix string and whose capability list contains the required
access mode (read for the moisture and temperature sensors, write for the
model endpoint); a role with zero matches fails with the
`CharacteristicNotFound` (`EndpointNotFound`) error — the failure arises
exactly where endpoints are resolved, it is not converted into a default. -/
theorem c8_endpoint_resolution (chars : List Characteristic) :
    ((∀ c, moisture_sensor chars = .ok c →
      matchesRole _READ_TYPE moistureUuidStart c = true ∧
      ∃ l₁ l₂, chars = l₁ ++ c :: l₂ ∧
        ∀ x ∈ l₁, matchesRole _READ_TYPE moistureUuidStart x = false) ∧
    (moisture_sensor chars = .error () ↔
      ∀ c ∈ chars, matchesRole _READ_TYPE moistureUuidStart c = false)) ∧
    ((∀ c, temperature_sensor chars = .ok c →
      matchesRole _READ_TYPE temperatureUuidStart c = true ∧
      ∃ l₁ l₂, chars = l₁ ++ c :: l₂ ∧
        ∀ x ∈ l₁, matchesRole _READ_TYPE temperatureUuidStart x = false) ∧
    (temperature_sensor chars = .error () ↔
      ∀ c ∈ chars, matchesRole _READ_TYPE temperatureUuidStart c = false)) ∧
    ((∀ c, model_characteristic chars = .ok c →
      matchesRole _WRITE_TYPE modelUuidStart c = true ∧
      ∃ l₁ l₂, chars = l₁ ++ c :: l₂ ∧
        ∀ x ∈ l₁, matchesRole _WRITE_TYPE modelUuidStart x = false) ∧
    (model_characteristic chars = .error () ↔
      ∀ c ∈ chars, matchesRole _WRITE_TYPE modelUuidStart c = false)) :=
  ⟨resolveRole_spec _ _ chars, resolveRole_spec _ _ chars, resolveRole_spec _ _ chars⟩

theorem c8_endpoint_resolution_witness :
    moisture_sensor [c8Char] = .ok c8Char ∧
    (matchesRole _READ_TYPE moistureUuidStart c8Char = true ∧
      ∃ l₁ l₂, [c8Char] = l₁ ++ c8Char :: l₂ ∧
        ∀ x ∈ l₁, matchesRole _READ_TYPE moistureUuidStart x = false) :=
  ⟨rfl, (c8_endpoint_resolution [c8Char]).1.1 c8Char rfl⟩

end AIPlant
